import Mathlib

/-!
Formal model of the autmc launcher frontend (TypeScript/Svelte sources) together
with a model of the backend download executor described by the design document.

Conventions used throughout:
* JavaScript strings are modelled as Lean `String`s; character-level operations
  work on `String.toList` (code points; all text involved is ASCII).
* A JavaScript `Map` is modelled by `JsMap`: its insertion-ordered `[[MapData]]`
  entry list.  Crucially, `Object.entries` applied to a `Map` instance returns
  the object's *own enumerable properties*, which for a `Map` is always the
  empty list — the entries live in internal slots.  `jsObjectEntriesOnMap`
  models exactly that.
* `arr.at(i)` / `arr[i]` return `undefined` out of range; both are modelled
  with `Option`.
* JavaScript numbers are IEEE-754 binary64 doubles, a subset of `ℚ`.  Each
  arithmetic operation (`*`, `/`) is correctly rounded, so it is modelled by
  the exact rational operation followed by `roundDouble`, the
  round-to-nearest-ties-to-even projection onto the binary64 grid.
  `Math.round` is exact on its double argument (halves toward `+∞`, `⌊x + 1/2⌋`).
  `Math.log` is implementation-approximated by the ECMAScript standard; the
  suffix-selection index `Math.floor(Math.log n / Math.log 1000)` is modelled
  by its exact-real value `Nat.log 1000 n` (`n ≥ 1`), which any
  sub-ulp-accurate implementation realizes away from the exact powers
  of 1000.
-/

/-- `pat` is a prefix of `text` (character lists). -/
def listStartsWith : List Char → List Char → Bool
  | [], _ => true
  | _ :: _, [] => false
  | p :: ps, t :: ts => p == t && listStartsWith ps ts

/-- `text` has `pat` as a contiguous substring (character lists). -/
def containsSub : List Char → List Char → Bool
  | [], pat => pat.isEmpty
  | t :: ts, pat => listStartsWith pat (t :: ts) || containsSub ts pat

/-- JavaScript `s.includes(sub)`. -/
def jsIncludes (s sub : String) : Bool :=
  containsSub s.toList sub.toList

/-- A JavaScript `Map` value: its internal, insertion-ordered entry list. -/
structure JsMap (α : Type) where
  entries : List (String × α)
deriving DecidableEq

/-- `Object.entries` applied to a `Map` instance.  A `Map` keeps its data in
internal slots, not in own enumerable properties, so the result is always
empty, whatever the `Map` contains. -/
def jsObjectEntriesOnMap {α : Type} (_ : JsMap α) : List (String × α) := []

/-- `new Map(entries)`. -/
def jsMapOfEntries {α : Type} (l : List (String × α)) : JsMap α := ⟨l⟩

/-- `map.has(key)` on a JavaScript `Map`. -/
def jsMapHas {α : Type} (m : JsMap α) (key : String) : Bool :=
  m.entries.any (fun kv => kv.1 == key)

/-- JavaScript array indexing `arr[i]` with a possibly negative index:
any index outside the array reads `undefined`. -/
def jsIndex (l : List String) (i : ℤ) : Option String :=
  if i < 0 then none else l.get? i.toNat

/-- JavaScript `arr.at(i)` for a non-negative index. -/
def jsAt {α : Type} (l : List α) (i : ℕ) : Option α := l.get? i

/-! ### Data shapes from the frontend stores -/

/-- `InstanceConfiguration` (src/store/instancestore.ts). -/
structure InstanceConfiguration where
  instance_name : String
  jvm_path : String
  arguments : String
  modloader_type : String
  modloader_version : String
deriving DecidableEq

/-- `VersionEntry` (src/store/manifeststore.ts). -/
structure VersionEntry where
  version : String
  releasedDate : String
  versionType : String
deriving DecidableEq

/-- `VersionManifest` (src/store/manifeststore.ts).  At runtime the UI stores
`forge_versions` as a real JavaScript `Map` (see NewInstanceVersion.svelte,
which assigns `new Map(Object.entries(...))` into the store, and
VanillaOptions.svelte line 58, which calls `.has` on it). -/
structure VersionManifest where
  vanilla_versions : List VersionEntry
  fabric_versions : List String
  forge_versions : JsMap (List String)
deriving DecidableEq

/-- A filter row of VanillaContent.svelte. -/
structure VersionFilter where
  id : String
  name : String
  checked : Bool
deriving DecidableEq

/-- `InstanceState` (src/store/instancestatetore.ts). -/
inductive InstanceState where
  | Initializing
  | Initialized
deriving DecidableEq

/-! ### C1: the instance-logging listener's state transition (part_005) -/

/-- The sentinel test of the `instance-logging` listener:
`payload.line.includes("Setting user:") || payload.line.includes("Initializing LWJGL OpenAL")`. -/
def isSentinelLine (line : String) : Bool :=
  jsIncludes line "Setting user:" || jsIncludes line "Initializing LWJGL OpenAL"

/-- One `instance-logging` event, projected to the state of a single instance
(the listener updates only the `payload.instance_name` key of the state map,
and reads the same key in its guard, so the per-instance projection is exact):
if the state is already `Initialized` the listener returns early; otherwise a
sentinel line sets it to `Initialized`. -/
def onLoggingEvent (s : InstanceState) (line : String) : InstanceState :=
  if s = InstanceState.Initialized then s
  else if isSentinelLine line then InstanceState.Initialized else s

/-- The state of an instance after the listener has processed `lines`, starting
from the `Initializing` state that `launchInstance` installs. -/
def runLogging (lines : List String) : InstanceState :=
  lines.foldl onLoggingEvent InstanceState.Initializing

/-! ### C2: line classification (Home/Logs/Logs.svelte) -/

/-- `isError` of Logs.svelte. -/
def isErrorLine (line : String) : Bool := jsIncludes line "/ERROR]:"

/-- `isWarning` of Logs.svelte. -/
def isWarningLine (line : String) : Bool := jsIncludes line "/WARN]:"

/-- `getClassForLine` of Logs.svelte. -/
def getClassForLine (line : String) : String :=
  if isErrorLine line then "error"
  else if isWarningLine line then "warn"
  else ""

/-! ### C6: name-conflict detection (new-instance/NewInstanceSettings.svelte) -/

/-- The reactive `hasConflict` expression: the store may still be `undefined`
(`none`); otherwise the proposed name is looked up with `Array.includes`,
which compares strings with `===`. -/
def hasConflict (store : Option (List InstanceConfiguration)) (name : String) : Bool :=
  match store with
  | none => false
  | some l => (l.map (fun e => e.instance_name)).contains name

/-! ### C7: `isValidVersionForForge` (src/store/manifeststore.ts) -/

/-- `isValidVersionForForge(manifest, vanillaVersion)`:
`new Map(Object.entries(manifest.forge_versions)).has(vanillaVersion)`. -/
def isValidVersionForForge (manifest : VersionManifest) (vanillaVersion : String) : Bool :=
  jsMapHas (jsMapOfEntries (jsObjectEntriesOnMap manifest.forge_versions)) vanillaVersion

/-! ### C9: vanilla-version filtering (components/new-instance/VanillaContent.svelte) -/

/-- The `versions.filter(...)` callback: the loop returns `true` on the first
checked filter whose id matches the entry's `versionType`, and otherwise the
callback falls through (returning `undefined`, which is falsy). -/
def versionMatchesFilters (filters : List VersionFilter) (v : VersionEntry) : Bool :=
  filters.any (fun f => v.versionType == f.id && f.checked)

/-- `getFilteredVanillaVersions`, returning the filtered list together with the
(possibly updated) `selectedVanillaVersion`: when the filtered list is nonempty
and does not contain the selection, the selection is reset to
`filteredVersions.at(0).version`. -/
def getFilteredVanillaVersions (versions : List VersionEntry) (filters : List VersionFilter)
    (selected : String) : List VersionEntry × String :=
  let filtered := versions.filter (versionMatchesFilters filters)
  match filtered.find? (fun v => v.version == selected) with
  | some _ => (filtered, selected)
  | none =>
    match filtered with
    | [] => (filtered, selected)
    | v :: rest => (v :: rest, v.version)

/-! ### C10: default version selections -/

/-- `versionManifest.vanilla_versions.at(0).version`
(VanillaContent.svelte line 15): `at(0)` yields `undefined` on an empty array
and the `.version` access then fails, so the whole expression is modelled as
an `Option`. -/
def selectedVanillaVersionInit (m : VersionManifest) : Option String :=
  (jsAt m.vanilla_versions 0).map (fun v => v.version)

/-- `versionEntries.at(0).version` (VersionTable, part_019 line 6). -/
def versionTableSelectedInit (entries : List VersionEntry) : Option String :=
  (jsAt entries 0).map (fun v => v.version)

/-! ### Natural (numeric-aware) collation

`String.prototype.localeCompare(_, "en", { numeric: true })` is modelled as a
three-way comparison on chunked strings: maximal digit runs compare by numeric
value (then by digit count), other runs compare by code point.  This is the
idealized natural collation the design document specifies. -/

/-- Three-way comparison on `ℕ`. -/
def cmpNat (a b : ℕ) : Ordering :=
  if a < b then Ordering.lt else if a = b then Ordering.eq else Ordering.gt

/-- Lexicographic lifting of a three-way comparison to lists. -/
def cmpList {α : Type} (f : α → α → Ordering) : List α → List α → Ordering
  | [], [] => Ordering.eq
  | [], _ :: _ => Ordering.lt
  | _ :: _, [] => Ordering.gt
  | a :: as, b :: bs => (f a b).then (cmpList f as bs)

/-- A chunk of a string under natural collation: a maximal run of non-digit
characters (kept as code points) or a maximal run of digits (kept as its
numeric value together with the digit count). -/
inductive NatChunk where
  | str (s : List ℕ)
  | num (v : ℕ) (len : ℕ)
deriving DecidableEq

/-- Chunk a character list into maximal digit / non-digit runs. -/
def tokenize : List Char → List NatChunk
  | [] => []
  | c :: cs =>
    let rest := tokenize cs
    if c.isDigit then
      match rest with
      | NatChunk.num v len :: rs => NatChunk.num ((c.toNat - 48) * 10 ^ len + v) (len + 1) :: rs
      | _ => NatChunk.num (c.toNat - 48) 1 :: rest
    else
      match rest with
      | NatChunk.str s :: rs => NatChunk.str (c.toNat :: s) :: rs
      | _ => NatChunk.str [c.toNat] :: rest

/-- Compare two chunks: numeric runs order before letter runs, numeric runs
compare by value then digit count, letter runs compare by code points. -/
def natChunkCmp : NatChunk → NatChunk → Ordering
  | NatChunk.num v1 l1, NatChunk.num v2 l2 => (cmpNat v1 v2).then (cmpNat l1 l2)
  | NatChunk.num _ _, NatChunk.str _ => Ordering.lt
  | NatChunk.str _, NatChunk.num _ _ => Ordering.gt
  | NatChunk.str s1, NatChunk.str s2 => cmpList cmpNat s1 s2

/-- The natural collation itself. -/
def natCmp (a b : String) : Ordering :=
  cmpList natChunkCmp (tokenize a.toList) (tokenize b.toList)

/-- The sort relation of `retrieveInstances`:
`a.instance_name.localeCompare(b.instance_name, "en", { numeric: true }) ≤ 0`. -/
def instNatLe (a b : InstanceConfiguration) : Prop :=
  (natCmp a.instance_name b.instance_name).isLE = true

instance : DecidableRel instNatLe := fun _ _ => instDecidableEqBool _ _

/-! ### C3: `retrieveInstances` (part_005 lines 43-70) -/

/-- `retrieveInstances` on the fresh-load path (`$instanceStore === undefined`,
modelled by `store = none`, or `force`): the array returned by
`load_instances` is sorted in place with the natural-collation comparator and
then optionally filtered (`if (filter)` is JS truthiness: any nonempty
string).  The regex matcher of the regex branch is kept abstract; the
in-place `Array.prototype.sort` is modelled as insertion sort over the
comparator's `≤`. -/
def retrieveInstances (regexMatch : String → String → Bool)
    (store : Option (List InstanceConfiguration)) (loaded : List InstanceConfiguration)
    (useRegex : Bool) (filter : String) : List InstanceConfiguration :=
  let st :=
    match store with
    | none => List.insertionSort instNatLe loaded
    | some l => l
  if filter ≠ "" then
    if useRegex then st.filter (fun i => regexMatch i.instance_name filter)
    else st.filter (fun i => jsIncludes i.instance_name filter)
  else st

/-! ### C4: `sortMap` (src/store/screenshotstore.ts) -/

/-- JavaScript default `Array.prototype.sort()` on strings: lexicographic
comparison of code units. -/
def jsDefaultStrLe (a b : String) : Prop :=
  (cmpList cmpNat (a.toList.map Char.toNat) (b.toList.map Char.toNat)).isLE = true

instance : DecidableRel jsDefaultStrLe := fun _ _ => instDecidableEqBool _ _

/-- `sortMap`: iterates `Object.entries(map)` — empty, since `map` is a `Map`
instance — and inserts each of those entries, with its value list
default-sorted and reversed, into a fresh `Map`. -/
def sortMap (map : JsMap (List String)) : JsMap (List String) :=
  ⟨(jsObjectEntriesOnMap map).map
    (fun kv => (kv.1, (List.insertionSort jsDefaultStrLe kv.2).reverse))⟩

/-! ### C8: `formatDownloads` (src/downloadfmt.ts)

JavaScript evaluates this function on binary64 doubles.  The binary64 values
are a subset of `ℚ`, and IEEE-754 prescribes that each `*` and `/` return
the representable value nearest the exact result (ties to even):
`roundDouble` is that projection, and `jsMul`/`jsDiv` compose it with the
exact operation. -/

/-- `abbreviations` of downloadfmt.ts. -/
def abbreviations : List String := ["k", "M", "B"]

/-- The integer nearest `x`, ties to even. -/
def nearestEvenInt (x : ℚ) : ℤ :=
  let f := ⌊x⌋
  let r : ℚ := x - (f : ℚ)
  if r < 1 / 2 then f
  else if 1 / 2 < r then f + 1
  else if f % 2 = 0 then f else f + 1

/-- The IEEE-754 binary64 double nearest `q` (round to nearest, ties to
even), for `q` in the doubles' normal range: scale `|q|` into
`[2^52, 2^53)`, round to the nearest (even) integer significand and scale
back.  Every quantity `formatDownloads` manipulates at the magnitudes the
theorems below mention is normal; overflow to `Infinity` and subnormals are
outside this model. -/
def roundDouble (q : ℚ) : ℚ :=
  if q = 0 then 0
  else
    let e : ℤ := Int.log 2 |q| - 52
    (if q < 0 then -1 else 1) * (nearestEvenInt (|q| / 2 ^ e) : ℚ) * 2 ^ e

/-- A JavaScript division `a / b`: the correctly rounded double of the exact
quotient. -/
def jsDiv (a b : ℚ) : ℚ := roundDouble (a / b)

/-- A JavaScript multiplication `a * b`: the correctly rounded double of the
exact product. -/
def jsMul (a b : ℚ) : ℚ := roundDouble (a * b)

/-- `Math.round`: the integer nearest the argument's exact value, halves
toward `+∞`.  Its result is an integer-valued double, exact at the
magnitudes arising here. -/
def jsMathRound (x : ℚ) : ℤ := ⌊x + 1 / 2⌋

/-- `random(n, precision)` of downloadfmt.ts in double arithmetic:
`prec = 10 ** precision` (exact at the only call site, `precision = 2`),
then `Math.round(n * prec) / prec` with the multiplication and the final
division correctly rounded. -/
def random (n : ℚ) (precision : ℕ) : ℚ :=
  let prec : ℚ := 10 ^ precision
  jsDiv ((jsMathRound (jsMul n prec) : ℤ) : ℚ) prec

/-- The JavaScript decimal rendering of the doubles this formatter prints.
Each such double is the one nearest `m / 100` for an integer `m` far below
`2^53`, and JS shortest-round-trip printing renders it as the decimal
numeral of `m / 100` with trailing zeros dropped; `m` is recovered from the
double by rounding `|q| · 100` back to the nearest integer. -/
def jsNumToString (q : ℚ) : String :=
  let sign := if q < 0 then "-" else ""
  let k : ℕ := (round (|q| * 100)).toNat
  let ip := k / 100
  let fr := k % 100
  sign ++
    (if fr = 0 then toString ip
     else if fr % 10 = 0 then toString ip ++ "." ++ toString (fr / 10)
     else if fr < 10 then toString ip ++ ".0" ++ toString fr
     else toString ip ++ "." ++ toString fr)

/-- `formatDownloads(n)` for a non-negative count (the JS argument is the
double of `n`, exact for `n < 2^53`).
`Math.floor(Math.log(n) / Math.log(1000))` is modelled by its exact value
`Nat.log 1000 n` for `n ≥ 1` (`Math.log` is implementation-approximated;
away from exact powers of 1000 any sub-ulp implementation matches the exact
value).  For `n = 0` the logarithm is `-∞`, making the array index
negative — every negative index reads `undefined` alike, so `-1` stands in
for `-∞`.  An `undefined` suffix is falsy and selects the `'' + n` branch;
otherwise the code rebinds `base` to `abbreviations.indexOf(suffix) + 1`
(called `base2` here) and returns `random(n / 1000 ** base, 2) + suffix`,
the division being a double division (`1000 ** base ≤ 10^9` is exact). -/
def formatDownloads (n : ℕ) : String :=
  let base : ℤ := if n = 0 then -1 else (Nat.log 1000 n : ℤ)
  match jsIndex abbreviations (min 2 (base - 1)) with
  | none => toString n
  | some suffix =>
    let base2 : ℕ := abbreviations.indexOf suffix + 1
    jsNumToString (random (jsDiv (n : ℚ) (1000 ^ base2)) 2) ++ suffix

/-! ### C5: the Download Executor (spec §4.2) -/

/-- Modelled from the spec: the Download Planner/Executor of §4.2 is part of
the Rust backend, which is not among the frontend sources; the definitions
below follow the specified execution algorithm.  A `FetchTask` carries the
download url, the canonical destination path and the optional expected
hash. -/
structure FetchTask where
  url : String
  dest : String
  expectedSha1 : Option ℕ
deriving DecidableEq

/-- The destination filesystem: an association list from canonical paths to
file contents (byte lists).  Temporary files live outside this namespace — a
download's bytes only ever reach a destination through the final rename. -/
abbrev DestFs : Type := List (String × List ℕ)

/-- Content at a path, if the file exists. -/
def fsGet (fs : DestFs) (p : String) : Option (List ℕ) :=
  (fs.find? (fun e => e.1 == p)).map (fun e => e.2)

/-- Atomically replace the file at `p` with content `b`. -/
def fsSet (fs : DestFs) (p : String) (b : List ℕ) : DestFs :=
  (p, b) :: fs.filter (fun e => !(e.1 == p))

/-- Whether content satisfies a task's integrity expectation (`hash` is the
hashing function, kept abstract). -/
def hashOk (hash : List ℕ → ℕ) (t : FetchTask) (b : List ℕ) : Bool :=
  match t.expectedSha1 with
  | none => true
  | some h => hash b == h

/-- Modelled from the spec: one executor task (§4.2).  If the destination
already exists and its streamed hash matches the expectation, skip.
Otherwise the download is streamed into a temporary file and hashed; on a
mismatch the task fails and the destination is not overwritten; on success
the temporary file is atomically renamed onto the destination. -/
def runTask (net : String → List ℕ) (hash : List ℕ → ℕ) (fs : DestFs) (t : FetchTask) :
    Option DestFs :=
  match fsGet fs t.dest with
  | some existing =>
    if hashOk hash t existing then some fs
    else if hashOk hash t (net t.url) then some (fsSet fs t.dest (net t.url)) else none
  | none =>
    if hashOk hash t (net t.url) then some (fsSet fs t.dest (net t.url)) else none

/-- Modelled from the spec: the executor over a task list (one linearization
of the bounded-parallel execution), returning the destination state and
whether every task succeeded. -/
def runExecutor (net : String → List ℕ) (hash : List ℕ → ℕ) (fs : DestFs) :
    List FetchTask → DestFs × Bool
  | [] => (fs, true)
  | t :: ts =>
    match runTask net hash fs t with
    | some fs2 => runExecutor net hash fs2 ts
    | none => (fs, false)

/-! ## Theorems -/

/-- Absorption: once `Initialized`, the listener never changes the state. -/
theorem foldl_onLoggingEvent_initialized (ls : List String) :
    ls.foldl onLoggingEvent InstanceState.Initialized = InstanceState.Initialized := by
  induction ls with
  | nil => rfl
  | cons l ls ih => simpa [onLoggingEvent] using ih

/-- The run reaches `Initialized` exactly when some line is a sentinel. -/
theorem runLogging_eq_initialized_iff (lines : List String) :
    runLogging lines = InstanceState.Initialized ↔ ∃ l ∈ lines, isSentinelLine l = true := by
  induction lines with
  | nil => simp [runLogging]
  | cons l ls ih =>
    by_cases h : isSentinelLine l = true
    · simp only [runLogging, List.foldl, onLoggingEvent, h, reduceCtorEq, if_true, if_false,
        reduceIte]
      constructor
      · intro _; exact ⟨l, List.mem_cons_self l ls, h⟩
      · intro _
        simpa [onLoggingEvent, h] using foldl_onLoggingEvent_initialized ls
    · have hstep : onLoggingEvent InstanceState.Initializing l = InstanceState.Initializing := by
        simp [onLoggingEvent, h]
      have : runLogging (l :: ls) = runLogging ls := by
        simp [runLogging, List.foldl, hstep]
      rw [this, ih]
      simp only [List.mem_cons]
      constructor
      · rintro ⟨x, hx, hs⟩; exact ⟨x, Or.inr hx, hs⟩
      · rintro ⟨x, hx, hs⟩
        rcases hx with rfl | hx
        · exact absurd hs h
        · exact ⟨x, hx, hs⟩

/-- Claim C1: starting from the `Initializing` state installed by
`launchInstance`, processing the stream of the instance's `instance-logging`
events reaches `Initialized` exactly when a processed line contains
`Setting user:` or `Initializing LWJGL OpenAL`; while no such line has been
processed the state is still `Initializing`; and from `Initialized` no later
logging event ever changes the state. -/
theorem instanceState_initialized_iff_sentinel (lines : List String) :
    (runLogging lines = InstanceState.Initialized ↔ ∃ l ∈ lines, isSentinelLine l = true) ∧
    ((∀ l ∈ lines, isSentinelLine l = false) → runLogging lines = InstanceState.Initializing) ∧
    (∀ more : List String,
      more.foldl onLoggingEvent InstanceState.Initialized = InstanceState.Initialized) := by
  refine ⟨runLogging_eq_initialized_iff lines, ?_, foldl_onLoggingEvent_initialized⟩
  intro hall
  cases hrun : runLogging lines with
  | Initializing => rfl
  | Initialized =>
    rcases (runLogging_eq_initialized_iff lines).mp hrun with ⟨l, hl, hs⟩
    rw [hall l hl] at hs
    exact absurd hs (by simp)

/-- Witness for C1 at a concrete event stream. -/
theorem instanceState_initialized_iff_sentinel_witness :
    runLogging ["[16:40:01] [Render thread/INFO]: Setting user: dave"] =
      InstanceState.Initialized :=
  (instanceState_initialized_iff_sentinel _).1.mpr
    ⟨"[16:40:01] [Render thread/INFO]: Setting user: dave", by simp, by decide⟩

/-- Claim C2 (counterexample): on a warning line the classifier returns
`"warn"`, which is not among the tags `""`, `"warning"`, `"error"` that the
claim allows. -/
theorem getClassForLine_warn_tag_counterexample :
    getClassForLine "[15:03:52] [main/WARN]: mapping conflict" = "warn" ∧
    "warn" ∉ (["", "warning", "error"] : List String) := by
  decide

/-- Claim C2 (amended): `getClassForLine` returns `"error"` iff the line
contains `/ERROR]:`; returns `"warn"` — not `"warning"` — iff the line
contains `/WARN]:` but not `/ERROR]:`; otherwise it returns the empty info
tag; and its result always lies in `{"", "warn", "error"}`. -/
theorem getClassForLine_spec (line : String) :
    (getClassForLine line = "error" ↔ isErrorLine line = true) ∧
    (getClassForLine line = "warn" ↔ (isWarningLine line = true ∧ isErrorLine line = false)) ∧
    (isErrorLine line = false → isWarningLine line = false → getClassForLine line = "") ∧
    getClassForLine line ∈ (["", "warn", "error"] : List String) := by
  cases he : isErrorLine line <;> cases hw : isWarningLine line <;>
    simp [getClassForLine, he, hw]

/-- Witness for the amended C2 at a concrete error line. -/
theorem getClassForLine_spec_witness :
    getClassForLine "[09:10:11] [Worker-Main-1/ERROR]: ticking entity" = "error" :=
  (getClassForLine_spec _).1.mpr (by decide)

/-- Claim C4 (code evaluation at the failing input): `screenshotStore.sort`
rebuilds the map from `Object.entries` of the live `Map`, which yields no
entries, so the sorted map is empty even though the store held an instance
with two screenshots — the sort loses the entry and both paths. -/
theorem sortMap_drops_all_entries :
    sortMap ⟨[("Instance A", ["2024-05-01_12.00.00.png", "2024-04-30_09.30.00.png"])]⟩ =
      ⟨[]⟩ ∧
    ([("Instance A", ["2024-05-01_12.00.00.png", "2024-04-30_09.30.00.png"])] :
        List (String × List String)) ≠ [] :=
  ⟨rfl, by simp⟩

/-- Claim C6: with a loaded instance list, the creation flow reports a name
conflict iff some existing instance's `instance_name` equals the proposed
name character for character; with the store still undefined it reports
none. -/
theorem hasConflict_iff (l : List InstanceConfiguration) (name : String) :
    (hasConflict (some l) name = true ↔ ∃ cfg ∈ l, cfg.instance_name = name) ∧
    hasConflict none name = false := by
  refine ⟨?_, rfl⟩
  simp only [hasConflict, List.contains, List.elem_iff, List.mem_map]

/-- Witness for C6: an exact match conflicts, a case-variant does not. -/
theorem hasConflict_iff_witness :
    hasConflict (some [⟨"Minecraft 1.20.1", "", "", "None", ""⟩]) "Minecraft 1.20.1" = true ∧
    hasConflict (some [⟨"Minecraft 1.20.1", "", "", "None", ""⟩]) "minecraft 1.20.1" = false := by
  refine ⟨?_, by decide⟩
  exact (hasConflict_iff [⟨"Minecraft 1.20.1", "", "", "None", ""⟩] "Minecraft 1.20.1").1.mpr
    ⟨⟨"Minecraft 1.20.1", "", "", "None", ""⟩, by simp, rfl⟩

/-- Claim C7 (code evaluation at the failing input): `isValidVersionForForge`
answers `false` for every manifest and version — `Object.entries` of the
`Map` the UI stores in `forge_versions` is empty — in particular for a
manifest whose `forge_versions` does contain the queried vanilla id. -/
theorem isValidVersionForForge_always_false :
    (∀ (m : VersionManifest) (v : String), isValidVersionForForge m v = false) ∧
    ("1.20.1", ["47.2.20", "47.2.19"]) ∈
      (⟨[("1.20.1", ["47.2.20", "47.2.19"])]⟩ : JsMap (List String)).entries :=
  ⟨fun _ _ => rfl, by simp⟩

/-- Claim C9: whenever the recomputed filtered vanilla-version list is
nonempty, the (possibly reset) selected vanilla version is the version of
some entry of that list. -/
theorem getFilteredVanillaVersions_selection (versions : List VersionEntry)
    (filters : List VersionFilter) (selected : String) :
    (getFilteredVanillaVersions versions filters selected).1 ≠ [] →
    ∃ v ∈ (getFilteredVanillaVersions versions filters selected).1,
      v.version = (getFilteredVanillaVersions versions filters selected).2 := by
  cases hf : (versions.filter (versionMatchesFilters filters)).find?
      (fun v => v.version == selected) with
  | some v =>
    simp only [getFilteredVanillaVersions, hf]
    intro _
    exact ⟨v, List.mem_of_find?_eq_some hf, by simpa using List.find?_some hf⟩
  | none =>
    simp only [getFilteredVanillaVersions, hf]
    cases hl : versions.filter (versionMatchesFilters filters) with
    | nil => intro h; exact absurd rfl h
    | cons v rest => intro _; exact ⟨v, List.mem_cons_self v rest, rfl⟩

/-- Witness for C9: filtering to releases with a stale selection resets the
selection to the first displayed entry. -/
theorem getFilteredVanillaVersions_selection_witness :
    ∃ v ∈ (getFilteredVanillaVersions [⟨"1.20.1", "2023-06-12", "release"⟩]
        [⟨"release", "Releases", true⟩] "1.16.5").1,
      v.version = (getFilteredVanillaVersions [⟨"1.20.1", "2023-06-12", "release"⟩]
        [⟨"release", "Releases", true⟩] "1.16.5").2 :=
  getFilteredVanillaVersions_selection _ _ _ (by decide)

/-- Claim C10: the default selections `vanilla_versions.at(0).version` and
`versionEntries.at(0).version` are defined exactly when the manifest carries
at least one vanilla version entry (respectively, when the entry list is
nonempty): under that precondition the `undefined`-access branch is
unreachable. -/
theorem defaultSelection_defined_iff (m : VersionManifest) (entries : List VersionEntry) :
    ((selectedVanillaVersionInit m).isSome ↔ m.vanilla_versions ≠ []) ∧
    ((versionTableSelectedInit entries).isSome ↔ entries ≠ []) := by
  constructor
  · cases h : m.vanilla_versions <;> simp [selectedVanillaVersionInit, jsAt, h]
  · cases entries <;> simp [versionTableSelectedInit, jsAt]

/-- Witness for C10 on a one-entry manifest. -/
theorem defaultSelection_defined_iff_witness :
    (selectedVanillaVersionInit ⟨[⟨"1.20.1", "2023-06-12", "release"⟩], [], ⟨[]⟩⟩).isSome :=
  (defaultSelection_defined_iff ⟨[⟨"1.20.1", "2023-06-12", "release"⟩], [], ⟨[]⟩⟩ []).1.mpr
    (by simp)

/-! ### Laws of the natural collation -/

/-- Swapping the arguments of `cmpNat` swaps the verdict. -/
theorem cmpNat_swap (a b : ℕ) : cmpNat b a = (cmpNat a b).swap := by
  unfold cmpNat
  split_ifs <;> first | rfl | omega

/-- `cmpNat` answers `eq` exactly on equal numbers. -/
theorem cmpNat_eq_iff (a b : ℕ) : cmpNat a b = Ordering.eq ↔ a = b := by
  unfold cmpNat
  split_ifs <;> simp_all <;> omega

/-- `cmpNat` answers `lt` exactly on strictly smaller first arguments. -/
theorem cmpNat_lt_iff (a b : ℕ) : cmpNat a b = Ordering.lt ↔ a < b := by
  unfold cmpNat
  split_ifs <;> simp_all

/-- Strict transitivity for `cmpNat`. -/
theorem cmpNat_lt_trans (a b c : ℕ) :
    cmpNat a b = Ordering.lt → cmpNat b c = Ordering.lt → cmpNat a c = Ordering.lt := by
  simp only [cmpNat_lt_iff]
  omega

/-- `Ordering.swap` distributes over `Ordering.then`. -/
theorem orderingThenSwap (x y : Ordering) : (x.then y).swap = x.swap.then y.swap := by
  cases x <;> cases y <;> rfl

/-- `Ordering.then` answers `eq` iff both parts do. -/
theorem orderingThenEqEq (x y : Ordering) :
    x.then y = Ordering.eq ↔ x = Ordering.eq ∧ y = Ordering.eq := by
  cases x <;> cases y <;> simp [Ordering.then]

/-- `Ordering.then` answers `lt` iff the first part does, or the first part
ties and the second answers `lt`. -/
theorem orderingThenEqLt (x y : Ordering) :
    x.then y = Ordering.lt ↔ x = Ordering.lt ∨ (x = Ordering.eq ∧ y = Ordering.lt) := by
  cases x <;> cases y <;> simp [Ordering.then]

/-- Swapping the argument lists of `cmpList` swaps the verdict. -/
theorem cmpList_swap {α : Type} (f : α → α → Ordering)
    (hf : ∀ a b, f b a = (f a b).swap) :
    ∀ as bs, cmpList f bs as = (cmpList f as bs).swap
  | [], [] => rfl
  | [], _ :: _ => rfl
  | _ :: _, [] => rfl
  | a :: as, b :: bs => by
    simp only [cmpList]
    rw [hf, cmpList_swap f hf as bs, orderingThenSwap]

/-- `cmpList` answers `eq` exactly on equal lists. -/
theorem cmpList_eq_iff {α : Type} (f : α → α → Ordering)
    (hf : ∀ a b, f a b = Ordering.eq ↔ a = b) :
    ∀ as bs, cmpList f as bs = Ordering.eq ↔ as = bs
  | [], [] => by simp [cmpList]
  | [], _ :: _ => by simp [cmpList]
  | _ :: _, [] => by simp [cmpList]
  | a :: as, b :: bs => by
    simp only [cmpList, orderingThenEqEq, hf, cmpList_eq_iff f hf as bs, List.cons.injEq]

/-- Strict transitivity for `cmpList`. -/
theorem cmpList_lt_trans {α : Type} (f : α → α → Ordering)
    (heq : ∀ a b, f a b = Ordering.eq ↔ a = b)
    (hlt : ∀ a b c, f a b = Ordering.lt → f b c = Ordering.lt → f a c = Ordering.lt) :
    ∀ as bs cs, cmpList f as bs = Ordering.lt → cmpList f bs cs = Ordering.lt →
      cmpList f as cs = Ordering.lt := by
  intro as
  induction as with
  | nil =>
    intro bs cs h1 h2
    cases bs with
    | nil => simp [cmpList] at h1
    | cons b bs =>
      cases cs with
      | nil => simp [cmpList] at h2
      | cons c cs => simp [cmpList]
  | cons a as ih =>
    intro bs cs h1 h2
    cases bs with
    | nil => simp [cmpList] at h1
    | cons b bs =>
      cases cs with
      | nil => simp [cmpList] at h2
      | cons c cs =>
        simp only [cmpList, orderingThenEqLt] at h1 h2 ⊢
        rcases h1 with h1 | ⟨h1e, h1r⟩
        · rcases h2 with h2 | ⟨h2e, h2r⟩
          · exact Or.inl (hlt a b c h1 h2)
          · have hbc : b = c := (heq b c).mp h2e
            exact Or.inl (hbc ▸ h1)
        · have hab : a = b := (heq a b).mp h1e
          subst hab
          rcases h2 with h2 | ⟨h2e, h2r⟩
          · exact Or.inl h2
          · exact Or.inr ⟨h2e, ih bs cs h1r h2r⟩

/-- Totality of the non-strict order induced by `cmpList`. -/
theorem cmpList_isLE_total {α : Type} (f : α → α → Ordering)
    (hf : ∀ a b, f b a = (f a b).swap) (as bs : List α) :
    (cmpList f as bs).isLE = true ∨ (cmpList f bs as).isLE = true := by
  cases h : cmpList f as bs with
  | lt => left; simp [Ordering.isLE]
  | eq => left; simp [Ordering.isLE]
  | gt => right; simp [cmpList_swap f hf as bs, h, Ordering.swap, Ordering.isLE]

/-- Transitivity of the non-strict order induced by `cmpList`. -/
theorem cmpList_isLE_trans {α : Type} (f : α → α → Ordering)
    (heq : ∀ a b, f a b = Ordering.eq ↔ a = b)
    (hlt : ∀ a b c, f a b = Ordering.lt → f b c = Ordering.lt → f a c = Ordering.lt)
    (as bs cs : List α)
    (h1 : (cmpList f as bs).isLE = true) (h2 : (cmpList f bs cs).isLE = true) :
    (cmpList f as cs).isLE = true := by
  cases hab : cmpList f as bs with
  | gt => rw [hab] at h1; simp [Ordering.isLE] at h1
  | eq =>
    have h : as = bs := (cmpList_eq_iff f heq as bs).mp hab
    rw [h]; exact h2
  | lt =>
    cases hbc : cmpList f bs cs with
    | gt => rw [hbc] at h2; simp [Ordering.isLE] at h2
    | eq =>
      have h : bs = cs := (cmpList_eq_iff f heq bs cs).mp hbc
      rw [← h, hab]; rfl
    | lt =>
      rw [cmpList_lt_trans f heq hlt as bs cs hab hbc]; rfl

/-- Swapping the arguments of `natChunkCmp` swaps the verdict. -/
theorem natChunkCmp_swap (c d : NatChunk) : natChunkCmp d c = (natChunkCmp c d).swap := by
  cases c with
  | str s1 =>
    cases d with
    | str s2 => simpa [natChunkCmp] using cmpList_swap cmpNat cmpNat_swap s1 s2
    | num v l => rfl
  | num v1 l1 =>
    cases d with
    | str s => rfl
    | num v2 l2 =>
      simp only [natChunkCmp]
      rw [cmpNat_swap v1 v2, cmpNat_swap l1 l2, ← orderingThenSwap]

/-- `natChunkCmp` answers `eq` exactly on equal chunks. -/
theorem natChunkCmp_eq_iff (c d : NatChunk) : natChunkCmp c d = Ordering.eq ↔ c = d := by
  cases c <;> cases d <;>
    simp [natChunkCmp, orderingThenEqEq, cmpNat_eq_iff, cmpList_eq_iff cmpNat cmpNat_eq_iff]

/-- Strict transitivity for `natChunkCmp`. -/
theorem natChunkCmp_lt_trans (c d e : NatChunk) :
    natChunkCmp c d = Ordering.lt → natChunkCmp d e = Ordering.lt →
      natChunkCmp c e = Ordering.lt := by
  cases c with
  | num v1 l1 =>
    cases d with
    | str s =>
      cases e with
      | num v l => intro _ h2; simp [natChunkCmp] at h2
      | str s2 => intro _ _; rfl
    | num v2 l2 =>
      cases e with
      | str s => intro _ _; rfl
      | num v3 l3 =>
        intro h1 h2
        simp only [natChunkCmp, orderingThenEqLt, cmpNat_lt_iff, cmpNat_eq_iff] at h1 h2 ⊢
        omega
  | str s1 =>
    cases d with
    | num v l => intro h1; simp [natChunkCmp] at h1
    | str s2 =>
      cases e with
      | num v l => intro _ h2; simp [natChunkCmp] at h2
      | str s3 =>
        intro h1 h2
        simp only [natChunkCmp] at h1 h2 ⊢
        exact cmpList_lt_trans cmpNat cmpNat_eq_iff cmpNat_lt_trans s1 s2 s3 h1 h2

/-- Totality of the natural collation's non-strict order. -/
theorem natCmp_isLE_total (a b : String) :
    (natCmp a b).isLE = true ∨ (natCmp b a).isLE = true :=
  cmpList_isLE_total natChunkCmp natChunkCmp_swap _ _

/-- Transitivity of the natural collation's non-strict order. -/
theorem natCmp_isLE_trans (a b c : String)
    (h1 : (natCmp a b).isLE = true) (h2 : (natCmp b c).isLE = true) :
    (natCmp a c).isLE = true :=
  cmpList_isLE_trans natChunkCmp natChunkCmp_eq_iff natChunkCmp_lt_trans _ _ _ h1 h2

/-- Claim C3: on the fresh-load path, the instance list handed to the UI by
`retrieveInstances` is sorted by `instance_name` under the natural
(numeric-aware) collation — whatever filter is active — and in particular
`"Minecraft 2"` orders strictly before `"Minecraft 10"`. -/
theorem retrieveInstances_sorted (regexMatch : String → String → Bool)
    (loaded : List InstanceConfiguration) (useRegex : Bool) (filter : String) :
    List.Pairwise instNatLe (retrieveInstances regexMatch none loaded useRegex filter) ∧
    natCmp "Minecraft 2" "Minecraft 10" = Ordering.lt := by
  constructor
  · have htotal : IsTotal InstanceConfiguration instNatLe :=
      ⟨fun a b => natCmp_isLE_total a.instance_name b.instance_name⟩
    have htrans : IsTrans InstanceConfiguration instNatLe :=
      ⟨fun a b c => natCmp_isLE_trans a.instance_name b.instance_name c.instance_name⟩
    have hsorted : List.Pairwise instNatLe (List.insertionSort instNatLe loaded) :=
      @List.sorted_insertionSort _ instNatLe _ htotal htrans loaded
    simp only [retrieveInstances]
    split
    · split
      · exact List.Pairwise.sublist (List.filter_sublist _) hsorted
      · exact List.Pairwise.sublist (List.filter_sublist _) hsorted
    · exact hsorted
  · decide

/-! ### Laws of the destination filesystem and the executor -/

/-- Reading back a just-written path. -/
theorem fsGet_fsSet_self (fs : DestFs) (p : String) (b : List ℕ) :
    fsGet (fsSet fs p b) p = some b := by
  simp [fsGet, fsSet, List.find?]

/-- Dropping the entries of one key does not change lookups of another key. -/
theorem find_filter_other_key (p q : String) (h : q ≠ p) :
    ∀ fs : DestFs,
      (fs.filter (fun e => !(e.1 == p))).find? (fun e => e.1 == q) =
        fs.find? (fun e => e.1 == q)
  | [] => rfl
  | e :: fs => by
    by_cases he : e.1 = p
    · have h1 : (e.1 == p) = true := beq_iff_eq.mpr he
      have h2 : (e.1 == q) = false := by
        simp only [beq_eq_false_iff_ne, ne_eq, he]
        exact fun hq => h hq.symm
      simp [List.filter_cons, h1, List.find?_cons, h2, find_filter_other_key p q h fs]
    · have h1 : (e.1 == p) = false := beq_eq_false_iff_ne.mpr he
      cases h2 : (e.1 == q) with
      | true => simp [List.filter_cons, h1, List.find?_cons, h2]
      | false => simp [List.filter_cons, h1, List.find?_cons, h2, find_filter_other_key p q h fs]

/-- Writing one path does not change reads of another. -/
theorem fsGet_fsSet_other (fs : DestFs) (p q : String) (b : List ℕ) (h : q ≠ p) :
    fsGet (fsSet fs p b) q = fsGet fs q := by
  have h1 : (p == q) = false := by
    simp only [beq_eq_false_iff_ne, ne_eq]
    exact fun hq => h hq.symm
  simp [fsGet, fsSet, List.find?_cons, h1, find_filter_other_key p q h fs]

/-- A successful task leaves verified content at its destination. -/
theorem runTask_some_post (net : String → List ℕ) (hash : List ℕ → ℕ) (fs : DestFs)
    (t : FetchTask) (fs2 : DestFs) (h : runTask net hash fs t = some fs2) :
    ∃ b, fsGet fs2 t.dest = some b ∧ hashOk hash t b = true := by
  unfold runTask at h
  cases hg : fsGet fs t.dest with
  | some existing =>
    simp only [hg] at h
    by_cases hok : hashOk hash t existing = true
    · rw [if_pos hok] at h
      cases h
      exact ⟨existing, hg, hok⟩
    · rw [if_neg hok] at h
      by_cases h2 : hashOk hash t (net t.url) = true
      · rw [if_pos h2] at h
        cases h
        exact ⟨net t.url, fsGet_fsSet_self fs t.dest (net t.url), h2⟩
      · rw [if_neg h2] at h
        cases h
  | none =>
    simp only [hg] at h
    by_cases h2 : hashOk hash t (net t.url) = true
    · rw [if_pos h2] at h
      cases h
      exact ⟨net t.url, fsGet_fsSet_self fs t.dest (net t.url), h2⟩
    · rw [if_neg h2] at h
      cases h

/-- A successful task changes no path other than its destination. -/
theorem runTask_some_frame (net : String → List ℕ) (hash : List ℕ → ℕ) (fs : DestFs)
    (t : FetchTask) (fs2 : DestFs) (h : runTask net hash fs t = some fs2)
    (q : String) (hq : q ≠ t.dest) : fsGet fs2 q = fsGet fs q := by
  unfold runTask at h
  cases hg : fsGet fs t.dest with
  | some existing =>
    simp only [hg] at h
    by_cases hok : hashOk hash t existing = true
    · rw [if_pos hok] at h; cases h; rfl
    · rw [if_neg hok] at h
      by_cases h2 : hashOk hash t (net t.url) = true
      · rw [if_pos h2] at h; cases h
        exact fsGet_fsSet_other fs t.dest q (net t.url) hq
      · rw [if_neg h2] at h; cases h
  | none =>
    simp only [hg] at h
    by_cases h2 : hashOk hash t (net t.url) = true
    · rw [if_pos h2] at h; cases h
      exact fsGet_fsSet_other fs t.dest q (net t.url) hq
    · rw [if_neg h2] at h; cases h

/-- Content present after a successful task is pre-existing content or that
task's fully verified download. -/
theorem runTask_some_write (net : String → List ℕ) (hash : List ℕ → ℕ) (fs : DestFs)
    (t : FetchTask) (fs2 : DestFs) (h : runTask net hash fs t = some fs2)
    (q : String) (b : List ℕ) (hb : fsGet fs2 q = some b) :
    fsGet fs q = some b ∨ (t.dest = q ∧ hashOk hash t b = true) := by
  by_cases hq : q = t.dest
  · rcases runTask_some_post net hash fs t fs2 h with ⟨c, hc, hok⟩
    rw [hq] at hb
    have hbc : b = c := by
      rw [hb] at hc
      exact Option.some.inj hc
    subst hbc
    unfold runTask at h
    cases hg : fsGet fs t.dest with
    | some existing =>
      simp only [hg] at h
      by_cases hok2 : hashOk hash t existing = true
      · rw [if_pos hok2] at h
        cases h
        left
        rw [hq]
        exact hb
      · right; exact ⟨hq.symm, hok⟩
    | none => right; exact ⟨hq.symm, hok⟩
  · left
    rw [← runTask_some_frame net hash fs t fs2 h q hq]
    exact hb

/-- The executor does not touch paths outside its tasks' destinations. -/
theorem runExecutor_frame (net : String → List ℕ) (hash : List ℕ → ℕ) (q : String) :
    ∀ (ts : List FetchTask) (fs : DestFs), (∀ t ∈ ts, t.dest ≠ q) →
      fsGet (runExecutor net hash fs ts).1 q = fsGet fs q
  | [], fs, _ => rfl
  | t :: ts, fs, hts => by
    cases hr : runTask net hash fs t with
    | none => simp only [runExecutor, hr]
    | some fs2 =>
      simp only [runExecutor, hr]
      rw [runExecutor_frame net hash q ts fs2 (fun u hu => hts u (List.mem_cons_of_mem t hu))]
      exact runTask_some_frame net hash fs t fs2 hr q
        (fun hq => hts t (List.mem_cons_self t ts) hq.symm)

/-- After a fully successful run with destination-deduplicated tasks, every
task's destination holds verified content. -/
theorem runExecutor_success_post (net : String → List ℕ) (hash : List ℕ → ℕ) :
    ∀ (ts : List FetchTask) (fs : DestFs),
      (runExecutor net hash fs ts).2 = true → (ts.map (fun t => t.dest)).Nodup →
      ∀ t ∈ ts, ∃ b, fsGet (runExecutor net hash fs ts).1 t.dest = some b ∧
        hashOk hash t b = true := by
  intro ts
  induction ts with
  | nil => intro fs _ _ t ht; exact absurd ht (List.not_mem_nil t)
  | cons t ts ih =>
    intro fs hsucc hnodup u hu
    cases hr : runTask net hash fs t with
    | none =>
      rw [show runExecutor net hash fs (t :: ts) = (fs, false) by
        simp only [runExecutor, hr]] at hsucc
      exact absurd hsucc (by simp)
    | some fs2 =>
      have hrun : runExecutor net hash fs (t :: ts) = runExecutor net hash fs2 ts := by
        simp only [runExecutor, hr]
      rw [hrun] at hsucc ⊢
      rw [List.map_cons, List.nodup_cons] at hnodup
      rcases List.mem_cons.mp hu with rfl | hu2
      · rcases runTask_some_post net hash fs u fs2 hr with ⟨b, hb, hok⟩
        refine ⟨b, ?_, hok⟩
        rw [runExecutor_frame net hash u.dest ts fs2 ?hne]
        · exact hb
        · intro v hv hveq
          exact hnodup.1 (hveq ▸ List.mem_map_of_mem (fun t => t.dest) hv)
      · exact ih fs2 hsucc hnodup.2 u hu2

/-- Whatever the outcome, every file present afterwards is either untouched
pre-existing content or the fully verified download of some task: no partial
failure leaves a half-written destination. -/
theorem runExecutor_no_partial (net : String → List ℕ) (hash : List ℕ → ℕ) :
    ∀ (ts : List FetchTask) (fs : DestFs) (p : String) (b : List ℕ),
      fsGet (runExecutor net hash fs ts).1 p = some b →
      fsGet fs p = some b ∨ ∃ t ∈ ts, t.dest = p ∧ hashOk hash t b = true := by
  intro ts
  induction ts with
  | nil => intro fs p b h; left; exact h
  | cons t ts ih =>
    intro fs p b h
    cases hr : runTask net hash fs t with
    | none =>
      rw [show runExecutor net hash fs (t :: ts) = (fs, false) by
        simp only [runExecutor, hr]] at h
      left; exact h
    | some fs2 =>
      rw [show runExecutor net hash fs (t :: ts) = runExecutor net hash fs2 ts by
        simp only [runExecutor, hr]] at h
      rcases ih fs2 p b h with h2 | ⟨u, hu, hd, hok⟩
      · rcases runTask_some_write net hash fs t fs2 hr p b h2 with h3 | ⟨hd, hok⟩
        · left; exact h3
        · right; exact ⟨t, List.mem_cons_self t ts, hd, hok⟩
      · right; exact ⟨u, List.mem_cons_of_mem t hu, hd, hok⟩

/-- Claim C5: after a successful return of the Download Executor on the tasks
of a resolved profile (destination-deduplicated, per the plan), every task's
file exists at its canonical destination and satisfies its expected hash when
one was known; and — success or partial failure — no destination ever holds
half-written bytes: its content is pre-existing or fully verified. -/
theorem downloadExecutor_guarantees (net : String → List ℕ) (hash : List ℕ → ℕ)
    (tasks : List FetchTask) (fs : DestFs) :
    ((runExecutor net hash fs tasks).2 = true →
      (tasks.map (fun t => t.dest)).Nodup →
      ∀ t ∈ tasks, ∃ b, fsGet (runExecutor net hash fs tasks).1 t.dest = some b ∧
        hashOk hash t b = true) ∧
    (∀ (p : String) (b : List ℕ), fsGet (runExecutor net hash fs tasks).1 p = some b →
      fsGet fs p = some b ∨ ∃ t ∈ tasks, t.dest = p ∧ hashOk hash t b = true) :=
  ⟨fun hsucc hnodup => runExecutor_success_post net hash tasks fs hsucc hnodup,
   fun p b hb => runExecutor_no_partial net hash tasks fs p b hb⟩

/-- Witness for C5: one download with a known hash, run on an empty
filesystem. -/
theorem downloadExecutor_guarantees_witness :
    ∃ b, fsGet (runExecutor (fun _ => [3, 4]) (fun bytes => bytes.sum) []
        [⟨"https://resources.example/a", "libraries/a.jar", some 7⟩]).1
        "libraries/a.jar" = some b ∧
      hashOk (fun bytes => bytes.sum)
        ⟨"https://resources.example/a", "libraries/a.jar", some 7⟩ b = true :=
  (downloadExecutor_guarantees (fun _ => [3, 4]) (fun bytes => bytes.sum)
      [⟨"https://resources.example/a", "libraries/a.jar", some 7⟩] []).1
    (by decide) (by decide) ⟨"https://resources.example/a", "libraries/a.jar", some 7⟩
    (by decide)

/-! ### Evaluating the double pipeline at concrete inputs -/

/-- Integers are fixed points of nearest-even rounding. -/
theorem nearestEvenInt_intCast (m : ℤ) : nearestEvenInt ((m : ℤ) : ℚ) = m := by
  simp only [nearestEvenInt]
  rw [Int.floor_intCast]
  norm_num

/-- `1` is a double. -/
theorem roundDouble_one : roundDouble 1 = 1 := by
  simp only [roundDouble]
  rw [if_neg (by norm_num : ¬ (1 : ℚ) = 0)]
  rw [show |(1 : ℚ)| = 1 from abs_of_pos (by norm_num)]
  rw [show Int.log 2 (1 : ℚ) = 0 by
    rw [Int.log_of_one_le_right 2 (by norm_num)]
    rw [show (⌊(1 : ℚ)⌋₊ : ℕ) = 1 by rw [Nat.floor_eq_iff (by norm_num)]; norm_num]
    norm_num]
  rw [show (0 : ℤ) - 52 = -52 by norm_num]
  rw [show (1 : ℚ) / (2 : ℚ) ^ (-52 : ℤ) = ((4503599627370496 : ℤ) : ℚ) by
    rw [zpow_neg, div_eq_mul_inv, inv_inv]; norm_num]
  rw [nearestEvenInt_intCast]
  rw [if_neg (by norm_num : ¬ (1 : ℚ) < 0), zpow_neg]
  norm_num

/-- `2` is a double. -/
theorem roundDouble_two : roundDouble 2 = 2 := by
  simp only [roundDouble]
  rw [if_neg (by norm_num : ¬ (2 : ℚ) = 0)]
  rw [show |(2 : ℚ)| = 2 from abs_of_pos (by norm_num)]
  rw [show Int.log 2 (2 : ℚ) = 1 by
    rw [Int.log_of_one_le_right 2 (by norm_num)]
    rw [show (⌊(2 : ℚ)⌋₊ : ℕ) = 2 by rw [Nat.floor_eq_iff (by norm_num)]; norm_num]
    rw [show Nat.log 2 2 = 1 from Nat.log_eq_of_pow_le_of_lt_pow (by norm_num) (by norm_num)]
    norm_num]
  rw [show (1 : ℤ) - 52 = -51 by norm_num]
  rw [show (2 : ℚ) / (2 : ℚ) ^ (-51 : ℤ) = ((4503599627370496 : ℤ) : ℚ) by
    rw [zpow_neg, div_eq_mul_inv, inv_inv]; norm_num]
  rw [nearestEvenInt_intCast]
  rw [if_neg (by norm_num : ¬ (2 : ℚ) < 0), zpow_neg]
  norm_num

/-- `200` is a double. -/
theorem roundDouble_twoHundred : roundDouble 200 = 200 := by
  simp only [roundDouble]
  rw [if_neg (by norm_num : ¬ (200 : ℚ) = 0)]
  rw [show |(200 : ℚ)| = 200 from abs_of_pos (by norm_num)]
  rw [show Int.log 2 (200 : ℚ) = 7 by
    rw [Int.log_of_one_le_right 2 (by norm_num)]
    rw [show (⌊(200 : ℚ)⌋₊ : ℕ) = 200 by rw [Nat.floor_eq_iff (by norm_num)]; norm_num]
    rw [show Nat.log 2 200 = 7 from Nat.log_eq_of_pow_le_of_lt_pow (by norm_num) (by norm_num)]
    norm_num]
  rw [show (7 : ℤ) - 52 = -45 by norm_num]
  rw [show (200 : ℚ) / (2 : ℚ) ^ (-45 : ℤ) = ((7036874417766400 : ℤ) : ℚ) by
    rw [zpow_neg, div_eq_mul_inv, inv_inv]; norm_num]
  rw [nearestEvenInt_intCast]
  rw [if_neg (by norm_num : ¬ (200 : ℚ) < 0), zpow_neg]
  norm_num

/-- The significand rounding behind `roundDouble (1005/1000)`:
`201/200 · 2^52 = 4526117625507348.48`, which rounds down. -/
theorem nearestEvenInt_scaled_1005 :
    nearestEvenInt (905223525101469696 / 200 : ℚ) = 4526117625507348 := by
  simp only [nearestEvenInt]
  rw [show ⌊(905223525101469696 / 200 : ℚ)⌋ = 4526117625507348 by
    norm_num [Int.floor_eq_iff]]
  rw [if_pos (by norm_num :
    (905223525101469696 / 200 : ℚ) - ((4526117625507348 : ℤ) : ℚ) < 1 / 2)]

/-- The double nearest `1005/1000` is `1.00499999999999989…`, strictly below
`1.005`. -/
theorem roundDouble_1005_1000 :
    roundDouble ((1005 : ℚ) / 1000) = 1131529406376837 / 1125899906842624 := by
  rw [show ((1005 : ℚ) / 1000) = 201 / 200 by norm_num]
  simp only [roundDouble]
  rw [if_neg (by norm_num : ¬ (201 : ℚ) / 200 = 0)]
  rw [show |(201 : ℚ) / 200| = 201 / 200 from abs_of_pos (by norm_num)]
  rw [show Int.log 2 ((201 : ℚ) / 200) = 0 by
    rw [Int.log_of_one_le_right 2 (by norm_num)]
    rw [show (⌊(201 / 200 : ℚ)⌋₊ : ℕ) = 1 by rw [Nat.floor_eq_iff (by norm_num)]; norm_num]
    norm_num]
  rw [show (0 : ℤ) - 52 = -52 by norm_num]
  rw [show ((201 : ℚ) / 200) / (2 : ℚ) ^ (-52 : ℤ) = 905223525101469696 / 200 by
    rw [zpow_neg, div_eq_mul_inv, inv_inv]; norm_num]
  rw [nearestEvenInt_scaled_1005]
  rw [if_neg (by norm_num : ¬ (201 : ℚ) / 200 < 0), zpow_neg]
  norm_num

/-- The significand rounding behind the product with `100`:
`…·2^46 = 7072058789855231.25`, which rounds down. -/
theorem nearestEvenInt_scaled_product :
    nearestEvenInt (113152940637683700 / 16 : ℚ) = 7072058789855231 := by
  simp only [nearestEvenInt]
  rw [show ⌊(113152940637683700 / 16 : ℚ)⌋ = 7072058789855231 by
    norm_num [Int.floor_eq_iff]]
  rw [if_pos (by norm_num :
    (113152940637683700 / 16 : ℚ) - ((7072058789855231 : ℤ) : ℚ) < 1 / 2)]

/-- The double product of the double of `1.005` with `100` is
`100.49999999999998578…`, strictly below `100.5`. -/
theorem roundDouble_1005_product :
    roundDouble ((1131529406376837 / 1125899906842624 : ℚ) * 100) =
      7072058789855231 / 70368744177664 := by
  rw [show (1131529406376837 / 1125899906842624 : ℚ) * 100 =
    113152940637683700 / 1125899906842624 by norm_num]
  simp only [roundDouble]
  rw [if_neg (by norm_num : ¬ (113152940637683700 : ℚ) / 1125899906842624 = 0)]
  rw [show |(113152940637683700 : ℚ) / 1125899906842624| =
    113152940637683700 / 1125899906842624 from abs_of_pos (by norm_num)]
  rw [show Int.log 2 ((113152940637683700 : ℚ) / 1125899906842624) = 6 by
    rw [Int.log_of_one_le_right 2 (by norm_num)]
    rw [show (⌊(113152940637683700 / 1125899906842624 : ℚ)⌋₊ : ℕ) = 100 by
      rw [Nat.floor_eq_iff (by norm_num)]; norm_num]
    rw [show Nat.log 2 100 = 6 from Nat.log_eq_of_pow_le_of_lt_pow (by norm_num) (by norm_num)]
    norm_num]
  rw [show (6 : ℤ) - 52 = -46 by norm_num]
  rw [show ((113152940637683700 : ℚ) / 1125899906842624) / (2 : ℚ) ^ (-46 : ℤ) =
    113152940637683700 / 16 by
    rw [zpow_neg, div_eq_mul_inv, inv_inv]; norm_num]
  rw [nearestEvenInt_scaled_product]
  rw [if_neg (by norm_num : ¬ (113152940637683700 : ℚ) / 1125899906842624 < 0), zpow_neg]
  norm_num

/-- Printing the double `1`. -/
theorem jsNumToString_one : jsNumToString 1 = "1" := by
  simp only [jsNumToString]
  rw [if_neg (by norm_num : ¬ (1 : ℚ) < 0)]
  rw [show |(1 : ℚ)| * 100 = 100 by norm_num]
  rw [show round (100 : ℚ) = 100 by
    rw [round_eq]; exact Int.floor_eq_iff.mpr ⟨by norm_num, by norm_num⟩]
  norm_num
  decide

/-- Printing the double `2`. -/
theorem jsNumToString_two : jsNumToString 2 = "2" := by
  simp only [jsNumToString]
  rw [if_neg (by norm_num : ¬ (2 : ℚ) < 0)]
  rw [show |(2 : ℚ)| * 100 = 200 by norm_num]
  rw [show round (200 : ℚ) = 200 by
    rw [round_eq]; exact Int.floor_eq_iff.mpr ⟨by norm_num, by norm_num⟩]
  norm_num
  decide

/-- Printing the exact two-decimal value `1.01`. -/
theorem jsNumToString_101_100 : jsNumToString ((101 : ℚ) / 100) = "1.01" := by
  simp only [jsNumToString]
  rw [if_neg (by norm_num : ¬ (101 : ℚ) / 100 < 0)]
  rw [show |(101 : ℚ) / 100| * 100 = 101 by
    rw [show |(101 : ℚ) / 100| = 101 / 100 from abs_of_pos (by norm_num)]; norm_num]
  rw [show round (101 : ℚ) = 101 by
    rw [round_eq]; exact Int.floor_eq_iff.mpr ⟨by norm_num, by norm_num⟩]
  norm_num
  decide

/-- The `k` branch of `formatDownloads`: for `1000 ≤ n < 10^6` the suffix is
`"k"` and the printed value is `random(n / 1000, 2)` in double arithmetic. -/
theorem formatDownloads_eq_k (n : ℕ) (h1 : 1000 ≤ n) (h2 : n < 1000000) :
    formatDownloads n = jsNumToString (random (jsDiv (n : ℚ) 1000) 2) ++ "k" := by
  have h0 : n ≠ 0 := by omega
  have hlog : Nat.log 1000 n = 1 :=
    Nat.log_eq_of_pow_le_of_lt_pow (by omega) (by norm_num; omega)
  simp only [formatDownloads, h0, if_false, hlog, Nat.cast_one]
  have hidx : jsIndex abbreviations (min 2 ((1 : ℤ) - 1)) = some "k" := rfl
  rw [hidx]
  show jsNumToString (random (jsDiv (n : ℚ)
      (1000 ^ (List.indexOf "k" abbreviations + 1))) 2) ++ "k" =
    jsNumToString (random (jsDiv (n : ℚ) 1000) 2) ++ "k"
  rw [show List.indexOf "k" abbreviations + 1 = 1 from rfl, pow_one]

/-- Claim C8 (counterexample): the claim demands the exact two-decimal
rounding of `n/1000`, but the program rounds in binary64 double arithmetic.
At `n = 1005` the double of `1005/1000` is `1.00499999999999989…`; times
`100` it is the double `100.49999999999998578…`, strictly below `100.5`, so
`Math.round` yields `100` and the program prints `"1k"` — while the exact
rounding of `1005/1000` to two decimal places is `1.01`, i.e. the string
`"1.01k"` the claim demands. -/
theorem formatDownloads_exact_rounding_counterexample :
    formatDownloads 1005 = "1k" ∧
    jsNumToString (((round (((1005 : ℚ) / 1000) * 100) : ℤ) : ℚ) / 100) ++ "k" = "1.01k" ∧
    ("1k" : String) ≠ "1.01k" := by
  refine ⟨?_, ?_, by decide⟩
  · rw [formatDownloads_eq_k 1005 (by norm_num) (by norm_num)]
    rw [show ((1005 : ℕ) : ℚ) = 1005 by norm_num]
    rw [show jsDiv (1005 : ℚ) 1000 = 1131529406376837 / 1125899906842624 by
      simp only [jsDiv]; exact roundDouble_1005_1000]
    simp only [random]
    rw [show ((10 : ℚ) ^ (2 : ℕ)) = 100 by norm_num]
    rw [show jsMul (1131529406376837 / 1125899906842624 : ℚ) 100 =
      7072058789855231 / 70368744177664 by
      simp only [jsMul]; exact roundDouble_1005_product]
    rw [show jsMathRound (7072058789855231 / 70368744177664 : ℚ) = 100 by
      simp only [jsMathRound]; norm_num [Int.floor_eq_iff]]
    rw [show jsDiv ((100 : ℤ) : ℚ) 100 = 1 by
      simp only [jsDiv]
      rw [show ((100 : ℤ) : ℚ) / 100 = 1 by norm_num]
      exact roundDouble_one]
    rw [jsNumToString_one]
    rfl
  · rw [show ((1005 : ℚ) / 1000) * 100 = 201 / 2 by norm_num]
    rw [show round ((201 : ℚ) / 2) = 101 by
      rw [round_eq]; norm_num [Int.floor_eq_iff]]
    rw [show ((101 : ℤ) : ℚ) / 100 = 101 / 100 by norm_num]
    rw [jsNumToString_101_100]
    rfl

/-- Claim C8 (amended): for `n < 1000` the formatter returns the plain
decimal string of `n`; for `1000 ≤ n < 1000000` it returns `n / 1000`
computed and rounded to two decimal places in IEEE-754 double arithmetic, as
the source does, followed by `"k"`; and for `n ≥ 1000000000` the suffix is
capped at `"B"`. -/
theorem formatDownloads_spec (n : ℕ) :
    (n < 1000 → formatDownloads n = toString n) ∧
    (1000 ≤ n → n < 1000000 →
      formatDownloads n = jsNumToString (random (jsDiv (n : ℚ) 1000) 2) ++ "k") ∧
    (1000000000 ≤ n → ∃ s : String, formatDownloads n = s ++ "B") := by
  refine ⟨?_, fun h1 h2 => formatDownloads_eq_k n h1 h2, ?_⟩
  · intro h
    by_cases h0 : n = 0
    · subst h0; rfl
    · have hlog : Nat.log 1000 n = 0 := Nat.log_eq_zero_iff.mpr (Or.inl h)
      simp only [formatDownloads, h0, if_false, hlog, Nat.cast_zero]
      rfl
  · intro h1
    have h0 : n ≠ 0 := by omega
    have hlog : 3 ≤ Nat.log 1000 n := by
      rw [← Nat.pow_le_iff_le_log (by norm_num) h0]
      norm_num
      omega
    have hmin : min (2 : ℤ) ((Nat.log 1000 n : ℤ) - 1) = 2 := by omega
    simp only [formatDownloads, h0, if_false, hmin]
    rw [show jsIndex abbreviations 2 = some "B" from rfl]
    exact ⟨jsNumToString (random (jsDiv (n : ℚ)
      (1000 ^ (List.indexOf "B" abbreviations + 1))) 2), rfl⟩

/-- Witness for the amended C8 at 5, 2000 and 2000000000. -/
theorem formatDownloads_spec_witness :
    formatDownloads 5 = "5" ∧ formatDownloads 2000 = "2k" ∧
      ∃ s : String, formatDownloads 2000000000 = s ++ "B" := by
  refine ⟨(formatDownloads_spec 5).1 (by norm_num), ?_,
    (formatDownloads_spec 2000000000).2.2 (by norm_num)⟩
  rw [(formatDownloads_spec 2000).2.1 (by norm_num) (by norm_num)]
  rw [show ((2000 : ℕ) : ℚ) = 2000 by norm_num]
  rw [show jsDiv (2000 : ℚ) 1000 = 2 by
    simp only [jsDiv]
    rw [show (2000 : ℚ) / 1000 = 2 by norm_num]
    exact roundDouble_two]
  simp only [random]
  rw [show ((10 : ℚ) ^ (2 : ℕ)) = 100 by norm_num]
  rw [show jsMul (2 : ℚ) 100 = 200 by
    simp only [jsMul]
    rw [show (2 : ℚ) * 100 = 200 by norm_num]
    exact roundDouble_twoHundred]
  rw [show jsMathRound (200 : ℚ) = 200 by
    simp only [jsMathRound]; norm_num [Int.floor_eq_iff]]
  rw [show jsDiv ((200 : ℤ) : ℚ) 100 = 2 by
    simp only [jsDiv]
    rw [show ((200 : ℤ) : ℚ) / 100 = 2 by norm_num]
    exact roundDouble_two]
  rw [jsNumToString_two]
  rfl
